import Mathlib

/-!
Verification of the log-sheriff summarization engine.

The definitions below are a shallow embedding of src/src/summarizer.cpp
(namespace log_sheriff) and of the CLI registration in the main translation
unit.  Strings are modelled as lists of characters (each character standing
for one byte); the host's local-time conversion (std::mktime) is an abstract
parameter, while the UTC conversion (timegm) is modelled by the standard
proleptic-Gregorian calendar-to-epoch computation.
-/

namespace LogSheriff

/-- C locale isspace: space, \t, \n, \v, \f, \r. -/
def isWsp (c : Char) : Bool :=
  c = ' ' || c = '\t' || c = '\n' || c = Char.ofNat 11 || c = Char.ofNat 12 || c = '\r'

/-- C locale isdigit. -/
def isDigitC (c : Char) : Bool :=
  '0' ≤ c && c ≤ '9'

/-- std::tolower on a byte in the C locale (ASCII). -/
def asciiLower (c : Char) : Char :=
  if 'A' ≤ c && c ≤ 'Z' then Char.ofNat (c.toNat + 32) else c

/-- to_lower_copy from summarizer.cpp. -/
def to_lower_copy (input : List Char) : List Char :=
  input.map asciiLower

/-- The interior loop of trim_and_collapse_ws: copies characters, emitting a
single space for each maximal whitespace run (the flag is previous_was_space). -/
def collapseLoop : List Char → Bool → List Char
  | [], _ => []
  | c :: rest, prev =>
    if isWsp c then
      (if prev then [] else [' ']) ++ collapseLoop rest true
    else
      c :: collapseLoop rest false

/-- trim from summarizer.cpp (drop surrounding whitespace, keep interior);
trim_and_collapse_ws computes its start and end indices the same way. -/
def trim (input : List Char) : List Char :=
  ((input.dropWhile isWsp).reverse.dropWhile isWsp).reverse

/-- trim_and_collapse_ws from summarizer.cpp: drop leading and trailing
whitespace, then collapse interior whitespace runs to single spaces. -/
def trim_and_collapse_ws (input : List Char) : List Char :=
  collapseLoop (trim input) false

/-- The digit-run replacement loop of normalize_line (the flag is in_number). -/
def numLoop : List Char → Bool → List Char
  | [], _ => []
  | c :: rest, inNum =>
    if isDigitC c then
      (if inNum then [] else '<' :: 'n' :: 'u' :: 'm' :: '>' :: []) ++ numLoop rest true
    else
      c :: numLoop rest false

/-- normalize_line from summarizer.cpp. -/
def normalize_line (input : List Char) : List Char :=
  let collapsed := trim_and_collapse_ws input
  if collapsed = [] then '<' :: 'e' :: 'm' :: 'p' :: 't' :: 'y' :: '>' :: []
  else numLoop collapsed false

inductive LogLevel where
  | Error : LogLevel
  | Warn : LogLevel
  | Info : LogLevel
  | Debug : LogLevel
deriving DecidableEq

/-- startsWith needle at the head of the haystack (std::string matching step). -/
def matchesAt : List Char → List Char → Bool
  | _, [] => true
  | [], _ :: _ => false
  | h :: t, n :: ns => h = n && matchesAt t ns

/-- std::string::find(needle) != npos: the needle occurs as a contiguous
substring of the haystack. -/
def hasSubstr : List Char → List Char → Bool
  | [], needle => needle.isEmpty
  | h :: t, needle => matchesAt (h :: t) needle || hasSubstr t needle

def kwError : List Char := 'e' :: 'r' :: 'r' :: 'o' :: 'r' :: []
def kwWarn : List Char := 'w' :: 'a' :: 'r' :: 'n' :: []
def kwInfo : List Char := 'i' :: 'n' :: 'f' :: 'o' :: []
def kwDebug : List Char := 'd' :: 'e' :: 'b' :: 'u' :: 'g' :: []

def levelKeyword : LogLevel → List Char
  | .Error => kwError
  | .Warn => kwWarn
  | .Info => kwInfo
  | .Debug => kwDebug

/-- line_has_level from summarizer.cpp. -/
def line_has_level (line : List Char) (wanted : LogLevel) : Bool :=
  hasSubstr (to_lower_copy line) (levelKeyword wanted)

/-- detect_level from summarizer.cpp: first level in priority order whose
keyword occurs in the lowercased line. -/
def detect_level (line : List Char) : Option LogLevel :=
  let lower := to_lower_copy line
  if hasSubstr lower kwError then some .Error
  else if hasSubstr lower kwWarn then some .Warn
  else if hasSubstr lower kwInfo then some .Info
  else if hasSubstr lower kwDebug then some .Debug
  else none

/-- parse_level from summarizer.cpp (case-insensitive exact match). -/
def parse_level (raw : List Char) : Option LogLevel :=
  let lower := to_lower_copy raw
  if lower = kwError then some .Error
  else if lower = kwWarn then some .Warn
  else if lower = kwInfo then some .Info
  else if lower = kwDebug then some .Debug
  else none

/-- Read a fixed-width run of digits: the loop body of parse_fixed_int. -/
def readFixedNat (input : List Char) : Nat → Nat → Nat → Option Nat
  | _, 0, acc => some acc
  | pos, len + 1, acc =>
    match input.get? pos with
    | some c =>
        if isDigitC c then readFixedNat input (pos + 1) len (acc * 10 + (c.toNat - 48))
        else none
    | none => none

/-- parse_fixed_int from summarizer.cpp: bounds check then digit loop. -/
def parse_fixed_int (input : List Char) (pos len : Nat) : Option Nat :=
  if pos + len > input.length then none
  else readFixedNat input pos len 0

/-- is_leap_year from summarizer.cpp (Gregorian rule). -/
def is_leap_year (year : Nat) : Bool :=
  if year % 400 = 0 then true
  else if year % 100 = 0 then false
  else year % 4 = 0

/-- days_in_month from summarizer.cpp. -/
def days_in_month (year month : Nat) : Nat :=
  if month < 1 || month > 12 then 0
  else if month = 2 && is_leap_year year then 29
  else [31, 28, 31, 30, 31, 30, 31, 31, 30, 31, 30, 31].getD (month - 1) 0

/-- Days between 1970-01-01 and the given civil date (proleptic Gregorian),
valid for year at most 9999.  This models the external timegm collaborator:
the computation is shifted by 400 years so that it stays in Nat. -/
def days_from_civil_1970 (y m d : Nat) : Int :=
  let yy := y + 400
  let y2 := if m ≤ 2 then yy - 1 else yy
  let era := y2 / 400
  let yoe := y2 - era * 400
  let mp := if m > 2 then m - 3 else m + 9
  let doy := (153 * mp + 2) / 5 + (d - 1)
  let doe := yoe * 365 + yoe / 4 - yoe / 100 + doy
  (era * 146097 + doe : Int) - 719468 - 146097

/-- Model of the external libc timegm: timezone-independent (UTC)
calendar-to-epoch conversion of the validated fields. -/
def timegm (y m d h mi s : Nat) : Int :=
  days_from_civil_1970 y m d * 86400 + (h * 3600 + mi * 60 + s : Nat)

/-- The host local-time conversion (std::mktime) is an abstract parameter:
it takes the six calendar fields and yields epoch seconds (or -1 on error). -/
def EpochFn : Type := Nat → Nat → Nat → Nat → Nat → Nat → Int

deriving instance DecidableEq for Except

structure ParsedTimestamp where
  epoch_seconds : Int
  consumed_chars : Nat
deriving DecidableEq

/-- Character of the input at index i (the C++ code indexes only in bounds,
after explicit length checks, so the default is never observed). -/
def charAtD (s : List Char) (i : Nat) : Char :=
  s.getD i (Char.ofNat 0)

/-- parse_timestamp_prefix from summarizer.cpp, parameterized by the host
local-time conversion.  Follows the source line by line: length check,
separator checks, six fixed-width digit fields, range validation, the Z
suffix for the T form, the following-character whitespace check, epoch
conversion, and the -1 sentinel check. -/
def parse_timestamp_prefix (localEpoch : EpochFn) (input : List Char) :
    Option ParsedTimestamp :=
  if input.length < 19 then none
  else if ¬(charAtD input 4 = '-' ∧ charAtD input 7 = '-' ∧
            charAtD input 13 = ':' ∧ charAtD input 16 = ':') then none
  else if ¬(charAtD input 10 = 'T' ∨ charAtD input 10 = ' ') then none
  else
    match parse_fixed_int input 0 4, parse_fixed_int input 5 2,
          parse_fixed_int input 8 2, parse_fixed_int input 11 2,
          parse_fixed_int input 14 2, parse_fixed_int input 17 2 with
    | some year, some month, some day, some hour, some minute, some second =>
      if month < 1 ∨ month > 12 then none
      else if day < 1 ∨ day > days_in_month year month then none
      else if hour > 23 ∨ minute > 59 ∨ second > 59 then none
      else
        let is_utc_z := charAtD input 10 = 'T'
        if is_utc_z ∧ (input.length < 20 ∨ ¬ charAtD input 19 = 'Z') then none
        else
          let consumed_chars := if is_utc_z then 20 else 19
          if input.length > consumed_chars ∧ ¬ isWsp (charAtD input consumed_chars) then
            none
          else
            let epoch_seconds :=
              if is_utc_z then timegm year month day hour minute second
              else localEpoch year month day hour minute second
            if epoch_seconds = -1 then none
            else some ⟨epoch_seconds, consumed_chars⟩
    | _, _, _, _, _, _ => none

/-- parse_timestamp_exact from summarizer.cpp: trim, prefix-parse, and require
full consumption. -/
def parse_timestamp_exact (localEpoch : EpochFn) (input : List Char) : Option Int :=
  let trimmed := trim input
  match parse_timestamp_prefix localEpoch trimmed with
  | none => none
  | some parsed =>
      if parsed.consumed_chars ≠ trimmed.length then none
      else some parsed.epoch_seconds

structure SummarizeOptions where
  files : List String
  contains : Option (List Char)
  level : Option LogLevel
  since : Option (List Char)
  until_ : Option (List Char)
  top_n : Nat
deriving DecidableEq

structure TopLine where
  normalized_line : List Char
  count : Nat
deriving DecidableEq

/-- The 4-slot matched_by_level array, indexed by LogLevel. -/
structure LevelTally where
  error : Nat
  warn : Nat
  info : Nat
  debug : Nat
deriving DecidableEq

def LevelTally.zero : LevelTally := ⟨0, 0, 0, 0⟩

def tallyGet (t : LevelTally) : LogLevel → Nat
  | .Error => t.error
  | .Warn => t.warn
  | .Info => t.info
  | .Debug => t.debug

def tallyBump (t : LevelTally) : LogLevel → LevelTally
  | .Error => { t with error := t.error + 1 }
  | .Warn => { t with warn := t.warn + 1 }
  | .Info => { t with info := t.info + 1 }
  | .Debug => { t with debug := t.debug + 1 }

structure SummaryResult where
  files_processed : Nat
  total_lines : Nat
  matched_lines : Nat
  matched_by_level : LevelTally
  top_lines : List TopLine
deriving DecidableEq

inductive SummarizeError where
  | invalidArgument : String → SummarizeError
  | resourceAcquisitionFailure : String → SummarizeError
deriving DecidableEq

/-- The run-level filter configuration computed by summarize after
validation: resolved time bounds plus the substring and level filters. -/
structure FilterConfig where
  since_bound : Option Int
  until_bound : Option Int
  contains : Option (List Char)
  level : Option LogLevel
deriving DecidableEq

/-- The time-range stage of the filter pipeline (summarizer.cpp lines
340-351): active iff a bound is set; prefix-parse failure excludes the line;
otherwise bounds are inclusive. -/
def time_stage (localEpoch : EpochFn) (cfg : FilterConfig) (line : List Char) : Bool :=
  if cfg.since_bound.isSome || cfg.until_bound.isSome then
    match parse_timestamp_prefix localEpoch line with
    | none => false
    | some parsed =>
        (match cfg.since_bound with
         | some b => decide (parsed.epoch_seconds ≥ b)
         | none => true) &&
        (match cfg.until_bound with
         | some b => decide (parsed.epoch_seconds ≤ b)
         | none => true)
  else true

/-- The substring stage (line 353): case-sensitive literal search. -/
def contains_stage (cfg : FilterConfig) (line : List Char) : Bool :=
  match cfg.contains with
  | some needle => hasSubstr line needle
  | none => true

/-- The level stage (line 357). -/
def level_stage (cfg : FilterConfig) (line : List Char) : Bool :=
  match cfg.level with
  | some wanted => line_has_level line wanted
  | none => true

/-- The whole per-line filter pipeline: time range, then substring, then
level, short-circuiting on first failure. -/
def line_passes (localEpoch : EpochFn) (cfg : FilterConfig) (line : List Char) : Bool :=
  time_stage localEpoch cfg line &&
  contains_stage cfg line &&
  level_stage cfg line

/-- One increment of the frequency map: ++frequency[key]. -/
def bump : List (List Char × Nat) → List Char → List (List Char × Nat)
  | [], key => [(key, 1)]
  | (k, c) :: rest, key =>
      if k = key then (k, c + 1) :: rest else (k, c) :: bump rest key

/-- The per-scan mutable state of summarize. -/
structure ScanState where
  files_processed : Nat
  total_lines : Nat
  matched_lines : Nat
  tally : LevelTally
  freq : List (List Char × Nat)
deriving DecidableEq

def ScanState.init : ScanState := ⟨0, 0, 0, LevelTally.zero, []⟩

/-- The loop body for one line (summarizer.cpp lines 337-368). -/
def step_line (localEpoch : EpochFn) (cfg : FilterConfig) (st : ScanState)
    (line : List Char) : ScanState :=
  let st := { st with total_lines := st.total_lines + 1 }
  if line_passes localEpoch cfg line then
    { st with
      matched_lines := st.matched_lines + 1
      tally := match detect_level line with
               | some lvl => tallyBump st.tally lvl
               | none => st.tally
      freq := bump st.freq (normalize_line line) }
  else st

/-- Process one opened file: count it, then fold over its lines. -/
def scan_file (localEpoch : EpochFn) (cfg : FilterConfig) (st : ScanState)
    (lines : List (List Char)) : ScanState :=
  lines.foldl (step_line localEpoch cfg)
    { st with files_processed := st.files_processed + 1 }

/-- The filesystem collaborator: a path either fails to open (none) or yields
its sequence of lines. -/
def FileSystem : Type := String → Option (List (List Char))

/-- The per-file loop: open each file in order, aborting the whole run on the
first open failure. -/
def scan_files (fs : FileSystem) (localEpoch : EpochFn) (cfg : FilterConfig) :
    ScanState → List String → Except SummarizeError ScanState
  | st, [] => .ok st
  | st, path :: rest =>
      match fs path with
      | none => .error (.resourceAcquisitionFailure ("failed to open file: " ++ path))
      | some lines => scan_files fs localEpoch cfg (scan_file localEpoch cfg st lines) rest

/-- std::string operator< : byte-wise lexicographic comparison. -/
def lexLt : List Char → List Char → Bool
  | [], [] => false
  | [], _ :: _ => true
  | _ :: _, [] => false
  | a :: as, b :: bs => if a < b then true else if b < a then false else lexLt as bs

/-- The strict comparator given to std::partial_sort (count descending, then
normalized line ascending byte-wise). -/
def topline_cmp (lhs rhs : TopLine) : Bool :=
  if lhs.count ≠ rhs.count then decide (lhs.count > rhs.count)
  else lexLt lhs.normalized_line rhs.normalized_line

/-- The non-strict order induced by the comparator, used for sorting. -/
def topline_le (lhs rhs : TopLine) : Bool :=
  ! topline_cmp rhs lhs

/-- The non-strict order as a relation, for sorting. -/
def TlLe (lhs rhs : TopLine) : Prop :=
  topline_le lhs rhs = true

instance : DecidableRel TlLe := fun a b => by
  unfold TlLe
  infer_instance

/-- Top-K extraction (summarizer.cpp lines 371-392): materialize the entries,
and unless the limit is zero take the first min(top_n, entries) of them in
comparator order.  std::partial_sort with a strict weak order whose induced
equivalence is equality (the comparator is antisymmetric on TopLine values)
yields exactly the first elements of the fully sorted sequence. -/
def select_top (top_n : Nat) (entries : List TopLine) : List TopLine :=
  let limit := min top_n entries.length
  if limit = 0 then []
  else (List.insertionSort TlLe entries).take limit

/-- The scan-and-assemble tail of summarize, after validation succeeded. -/
def run_scan (fs : FileSystem) (localEpoch : EpochFn) (cfg : FilterConfig)
    (options : SummarizeOptions) : Except SummarizeError SummaryResult :=
  match scan_files fs localEpoch cfg ScanState.init options.files with
  | .error e => .error e
  | .ok st =>
      .ok { files_processed := st.files_processed
            total_lines := st.total_lines
            matched_lines := st.matched_lines
            matched_by_level := st.tally
            top_lines :=
              select_top options.top_n
                (st.freq.map (fun kv => ⟨kv.1, kv.2⟩)) }

/-- summarize from summarizer.cpp: validation, per-file scan, top-K. -/
def summarize (fs : FileSystem) (localEpoch : EpochFn)
    (options : SummarizeOptions) : Except SummarizeError SummaryResult :=
  if options.files = [] then
    .error (.invalidArgument "no input files supplied")
  else if options.since.map (parse_timestamp_exact localEpoch) = some none then
    .error (.invalidArgument
      "invalid --since timestamp; expected YYYY-MM-DDTHH:MM:SSZ or YYYY-MM-DD HH:MM:SS")
  else if options.until_.map (parse_timestamp_exact localEpoch) = some none then
    .error (.invalidArgument
      "invalid --until timestamp; expected YYYY-MM-DDTHH:MM:SSZ or YYYY-MM-DD HH:MM:SS")
  else
    let since_bound := (options.since.map (parse_timestamp_exact localEpoch)).join
    let until_bound := (options.until_.map (parse_timestamp_exact localEpoch)).join
    match since_bound, until_bound with
    | some s, some u =>
        if s > u then
          .error (.invalidArgument "--since must be less than or equal to --until")
        else run_scan fs localEpoch ⟨some s, some u, options.contains, options.level⟩ options
    | s, u => run_scan fs localEpoch ⟨s, u, options.contains, options.level⟩ options

/-- The filter configuration summarize builds after successful validation. -/
def cfgOf (localEpoch : EpochFn) (options : SummarizeOptions) : FilterConfig :=
  ⟨(options.since.map (parse_timestamp_exact localEpoch)).join,
   (options.until_.map (parse_timestamp_exact localEpoch)).join,
   options.contains, options.level⟩

/-- Sum of the counts stored in the frequency aggregate. -/
def freqSum (freq : List (List Char × Nat)) : Nat :=
  (freq.map Prod.snd).sum

/-- All lines of the given paths in scan order (an opened file contributes
its lines; getD is only consulted for paths that open successfully). -/
def allLines (fs : FileSystem) (paths : List String) : List (List Char) :=
  (paths.map (fun p => (fs p).getD [])).flatten

section SpecSide

/-!  Spec-side definitions, written from the specification text, to be
compared against the definitions above taken from the source. -/

structure TsFields where
  year : Nat
  month : Nat
  day : Nat
  hour : Nat
  minute : Nat
  second : Nat
deriving DecidableEq

/-- Contiguous field of the string at a fixed offset and width. -/
def slice (s : List Char) (pos len : Nat) : List Char :=
  (s.drop pos).take len

/-- Decimal value of an all-digit field. -/
def digitsVal (l : List Char) : Option Nat :=
  if l.all (fun c => isDigitC c) then
    some (l.foldl (fun a c => a * 10 + (c.toNat - 48)) 0)
  else none

/-- Spec 4.3 grammar: the string is exactly the 20-character UTC form, with
literal separators at offsets 4, 7, 10 (T), 13, 16 and Z at 19. -/
abbrev spec_shape_utc (s : List Char) : Prop :=
  s.length = 20 ∧ charAtD s 4 = '-' ∧ charAtD s 7 = '-' ∧ charAtD s 10 = 'T' ∧
  charAtD s 13 = ':' ∧ charAtD s 16 = ':' ∧ charAtD s 19 = 'Z'

/-- Spec 4.3 grammar: the string is exactly the 19-character local form, with
a space separator at offset 10. -/
abbrev spec_shape_local (s : List Char) : Prop :=
  s.length = 19 ∧ charAtD s 4 = '-' ∧ charAtD s 7 = '-' ∧ charAtD s 10 = ' ' ∧
  charAtD s 13 = ':' ∧ charAtD s 16 = ':'

/-- Spec 4.3 validation of the numeric fields. -/
abbrev spec_fields_ok (f : TsFields) : Prop :=
  1 ≤ f.month ∧ f.month ≤ 12 ∧ 1 ≤ f.day ∧ f.day ≤ days_in_month f.year f.month ∧
  f.hour ≤ 23 ∧ f.minute ≤ 59 ∧ f.second ≤ 59

/-- The spec's description of an accepted timestamp string: one of the two
fixed-width forms with all-digit fields in range.  Returns the fields and
whether the UTC form was used. -/
def spec_timestamp_read (s : List Char) : Option (TsFields × Bool) :=
  if spec_shape_utc s ∨ spec_shape_local s then
    match digitsVal (slice s 0 4), digitsVal (slice s 5 2), digitsVal (slice s 8 2),
          digitsVal (slice s 11 2), digitsVal (slice s 14 2), digitsVal (slice s 17 2) with
    | some y, some mo, some d, some h, some mi, some sec =>
        let f : TsFields := ⟨y, mo, d, h, mi, sec⟩
        if spec_fields_ok f then some (f, decide (charAtD s 10 = 'T')) else none
    | _, _, _, _, _, _ => none
  else none

end SpecSide

section CliSurface

/-!  The command-line surface registered by main for the summarize
subcommand (the second translation unit of src/src/summarizer.cpp). -/

/-- The option names registered on the summarize subcommand by main:
add_option("--contains", ...), add_option("--level", ...),
add_option("--top", ...), add_flag("--json", ...).  No other option is
registered. -/
def summarize_cli_option_names : List String :=
  ["--contains", "--level", "--top", "--json"]

/-- The default value given to --top by default_val(10). -/
def summarize_cli_top_default : Nat := 10

/-- The check attached to --top is CLI::PositiveNumber: the smallest
accepted value. -/
def summarize_cli_top_min : Nat := 1

end CliSurface

/-- C4: a successful prefix timestamp parse consumes exactly 20 characters
for the UTC form (T separator, with Z at offset 19) and exactly 19 for the
local form (space separator); and whenever characters follow the consumed
prefix, the character immediately after it is whitespace. -/
theorem parse_prefix_shape (le : EpochFn) (input : List Char) (p : ParsedTimestamp)
    (h : parse_timestamp_prefix le input = some p) :
    (charAtD input 10 = 'T' → p.consumed_chars = 20 ∧ charAtD input 19 = 'Z') ∧
    (charAtD input 10 = ' ' → p.consumed_chars = 19) ∧
    (input.length > p.consumed_chars → isWsp (charAtD input p.consumed_chars) = true) := by
  unfold parse_timestamp_prefix at h
  split at h
  · exact absurd h (by simp)
  split at h
  · exact absurd h (by simp)
  split at h
  · exact absurd h (by simp)
  split at h
  case _ year month day hour minute second hy hmo hd hh hmi hs =>
    split at h
    · exact absurd h (by simp)
    split at h
    · exact absurd h (by simp)
    split at h
    · exact absurd h (by simp)
    dsimp only at h
    by_cases hT : charAtD input 10 = 'T'
    · simp only [hT, true_and, if_true, eq_self_iff_true] at h
      split at h
      · exact absurd h (by simp)
      rename_i hz
      split at h
      · exact absurd h (by simp)
      rename_i htrail
      split at h
      · exact absurd h (by simp)
      injection h with h
      push_neg at hz htrail
      refine ⟨fun _ => ⟨?_, ?_⟩, fun hSp => ?_, fun hgt => ?_⟩
      · rw [← h]
      · exact hz.2
      · exact absurd (hT.symm.trans hSp) (by decide)
      · rw [← h] at hgt ⊢
        exact htrail hgt
    · simp only [hT, false_and, if_false, eq_self_iff_true] at h
      split at h
      · exact absurd h (by simp)
      rename_i htrail
      split at h
      · exact absurd h (by simp)
      injection h with h
      push_neg at htrail
      refine ⟨fun hc => absurd hc hT, fun hSp => ?_, fun hgt => ?_⟩
      · rw [← h]
      · rw [← h] at hgt ⊢
        exact htrail hgt
  all_goals exact absurd h (by simp)

/-- Witness for C4 at a concrete line with trailing content. -/
theorem parse_prefix_shape_witness :
    parse_timestamp_prefix timegm ("2026-02-09T18:01:03Z ok".toList) =
      some ⟨1770660063, 20⟩ ∧
    (charAtD ("2026-02-09T18:01:03Z ok".toList) 10 = 'T' →
      (⟨1770660063, 20⟩ : ParsedTimestamp).consumed_chars = 20 ∧
      charAtD ("2026-02-09T18:01:03Z ok".toList) 19 = 'Z') :=
  ⟨by decide, (parse_prefix_shape timegm ("2026-02-09T18:01:03Z ok".toList)
      ⟨1770660063, 20⟩ (by decide)).1⟩

/-- C9: the option surface main registers on the summarize subcommand.  The
code registers only --contains, --level, --top (default 10, validated by
CLI::PositiveNumber, so minimum 1) and --json; --since and --until are never
registered, although the README documents them and the engine supports them. -/
theorem summarize_cli_surface :
    ¬ ("--since" ∈ summarize_cli_option_names) ∧
    ¬ ("--until" ∈ summarize_cli_option_names) ∧
    "--contains" ∈ summarize_cli_option_names ∧
    "--level" ∈ summarize_cli_option_names ∧
    "--top" ∈ summarize_cli_option_names ∧
    "--json" ∈ summarize_cli_option_names ∧
    summarize_cli_top_default = 10 ∧
    summarize_cli_top_min = 1 := by
  refine ⟨?_, ?_, ?_, ?_, ?_, ?_, rfl, rfl⟩ <;> decide

/-- C2: with a time bound set, a line whose prefix parse fails never passes
the pipeline; a parsed line whose epoch equals the since bound or the until
bound is retained by the time stage (bounds inclusive, under the validated
since-at-most-until ordering); with no bound set the time stage excludes
nothing; and the pipeline is the conjunction of the time, substring and
level stages in that order. -/
theorem filter_pipeline_behavior (le : EpochFn) (cfg : FilterConfig) (line : List Char) :
    ((cfg.since_bound.isSome ∨ cfg.until_bound.isSome) →
       parse_timestamp_prefix le line = none → line_passes le cfg line = false) ∧
    (∀ p, parse_timestamp_prefix le line = some p →
       (cfg.since_bound = some p.epoch_seconds ∨ cfg.until_bound = some p.epoch_seconds) →
       (∀ s u, cfg.since_bound = some s → cfg.until_bound = some u → s ≤ u) →
       time_stage le cfg line = true) ∧
    (cfg.since_bound = none → cfg.until_bound = none →
       time_stage le cfg line = true) ∧
    (line_passes le cfg line =
       (time_stage le cfg line && contains_stage cfg line && level_stage cfg line)) := by
  refine ⟨?_, ?_, ?_, rfl⟩
  · intro hact hnone
    have : time_stage le cfg line = false := by
      unfold time_stage
      rw [if_pos, hnone]
      rcases hact with h | h <;> simp [h]
    simp [line_passes, this]
  · intro p hp hbound hord
    unfold time_stage
    rw [if_pos, hp]
    · rcases hbound with hb | hb
      · rw [hb]
        cases hu : cfg.until_bound with
        | none => simp
        | some u =>
            have := hord p.epoch_seconds u hb hu
            simp [this]
      · rw [hb]
        cases hs : cfg.since_bound with
        | none => simp
        | some s =>
            have := hord s p.epoch_seconds hs hb
            simp [this]
    · rcases hbound with hb | hb <;> simp [hb]
  · intro hs hu
    unfold time_stage
    rw [if_neg]
    simp [hs, hu]

/-- Witness for C2 at a line whose timestamp equals the since bound. -/
theorem filter_pipeline_behavior_witness :
    parse_timestamp_prefix timegm ("2026-02-09T18:01:03Z boot".toList) =
      some ⟨1770660063, 20⟩ ∧
    time_stage timegm ⟨some 1770660063, none, none, none⟩
      ("2026-02-09T18:01:03Z boot".toList) = true :=
  ⟨by decide,
   (filter_pipeline_behavior timegm ⟨some 1770660063, none, none, none⟩
       ("2026-02-09T18:01:03Z boot".toList)).2.1
     ⟨1770660063, 20⟩ (by decide) (Or.inl rfl)
     (fun _ u _ hu => Option.noConfusion hu)⟩

lemma summarize_valid (fs : FileSystem) (le : EpochFn) (o : SummarizeOptions)
    (h1 : ¬ o.files = [])
    (h2 : ¬ o.since.map (parse_timestamp_exact le) = some none)
    (h3 : ¬ o.until_.map (parse_timestamp_exact le) = some none)
    (h4 : ∀ s u, (o.since.map (parse_timestamp_exact le)).join = some s →
          (o.until_.map (parse_timestamp_exact le)).join = some u → s ≤ u) :
    summarize fs le o = run_scan fs le (cfgOf le o) o := by
  unfold summarize
  rw [if_neg h1, if_neg h2, if_neg h3]
  dsimp only
  rcases hs : (o.since.map (parse_timestamp_exact le)).join with _ | s <;>
    rcases hu : (o.until_.map (parse_timestamp_exact le)).join with _ | u <;>
      simp only [hs, hu, cfgOf]
  have hle := h4 s u hs hu
  rw [if_neg (by omega)]

lemma scan_files_open_fail (fs : FileSystem) (le : EpochFn) (cfg : FilterConfig) :
    ∀ (paths : List String) (st : ScanState),
    (∃ p ∈ paths, fs p = none) →
    ∃ m, scan_files fs le cfg st paths = .error (.resourceAcquisitionFailure m) := by
  intro paths
  induction paths with
  | nil =>
      intro st h
      rcases h with ⟨p, hp, _⟩
      cases hp
  | cons q rest ih =>
      intro st h
      cases hq : fs q with
      | none => exact ⟨"failed to open file: " ++ q, by simp [scan_files, hq]⟩
      | some lines =>
          rcases h with ⟨p, hp, hpn⟩
          rcases List.mem_cons.mp hp with rfl | hmem
          · rw [hq] at hpn; cases hpn
          · obtain ⟨m, hm⟩ := ih (scan_file le cfg st lines) ⟨p, hmem, hpn⟩
            exact ⟨m, by simp [scan_files, hq, hm]⟩

/-- C5: with an empty file list, an unparseable since or until value, or
since greater than until, summarize fails with an InvalidArgument error whose
value does not depend on the filesystem (no file is touched); once validation
passes, any file that fails to open makes the whole run fail with a
ResourceAcquisitionFailure; an error is the entire outcome, so no
SummaryResult is returned in any of these cases. -/
theorem summarize_error_cases (fs fs' : FileSystem) (le : EpochFn) (o : SummarizeOptions) :
    (o.files = [] →
       summarize fs le o = .error (.invalidArgument "no input files supplied") ∧
       summarize fs le o = summarize fs' le o) ∧
    (¬ o.files = [] → o.since.map (parse_timestamp_exact le) = some none →
       summarize fs le o = .error (.invalidArgument
         "invalid --since timestamp; expected YYYY-MM-DDTHH:MM:SSZ or YYYY-MM-DD HH:MM:SS") ∧
       summarize fs le o = summarize fs' le o) ∧
    (¬ o.files = [] → ¬ o.since.map (parse_timestamp_exact le) = some none →
       o.until_.map (parse_timestamp_exact le) = some none →
       summarize fs le o = .error (.invalidArgument
         "invalid --until timestamp; expected YYYY-MM-DDTHH:MM:SSZ or YYYY-MM-DD HH:MM:SS") ∧
       summarize fs le o = summarize fs' le o) ∧
    (∀ s u, ¬ o.files = [] → ¬ o.since.map (parse_timestamp_exact le) = some none →
       ¬ o.until_.map (parse_timestamp_exact le) = some none →
       (o.since.map (parse_timestamp_exact le)).join = some s →
       (o.until_.map (parse_timestamp_exact le)).join = some u → s > u →
       summarize fs le o = .error (.invalidArgument
         "--since must be less than or equal to --until") ∧
       summarize fs le o = summarize fs' le o) ∧
    ((¬ o.files = []) → (¬ o.since.map (parse_timestamp_exact le) = some none) →
       (¬ o.until_.map (parse_timestamp_exact le) = some none) →
       (∀ s u, (o.since.map (parse_timestamp_exact le)).join = some s →
          (o.until_.map (parse_timestamp_exact le)).join = some u → s ≤ u) →
       (∃ p ∈ o.files, fs p = none) →
       ∃ m, summarize fs le o = .error (.resourceAcquisitionFailure m)) := by
  refine ⟨?_, ?_, ?_, ?_, ?_⟩
  · intro h
    constructor <;> simp [summarize, h]
  · intro h1 h2
    constructor <;> simp [summarize, h1, h2]
  · intro h1 h2 h3
    constructor <;> simp [summarize, h1, h2, h3]
  · intro s u h1 h2 h3 hs hu hgt
    have hred : ∀ g : FileSystem, summarize g le o = .error (.invalidArgument
        "--since must be less than or equal to --until") := by
      intro g
      unfold summarize
      rw [if_neg h1, if_neg h2, if_neg h3]
      dsimp only
      rw [hs, hu]
      simp [hgt]
    exact ⟨hred fs, (hred fs).trans (hred fs').symm⟩
  · intro h1 h2 h3 h4 hopen
    rw [summarize_valid fs le o h1 h2 h3 h4]
    obtain ⟨m, hm⟩ := scan_files_open_fail fs le (cfgOf le o) o.files ScanState.init hopen
    exact ⟨m, by simp [run_scan, hm]⟩

/-- Witness for C5: an empty file list and, separately, a failing open. -/
theorem summarize_error_cases_witness :
    summarize (fun _ => none) timegm ⟨[], none, none, none, none, 10⟩ =
      .error (.invalidArgument "no input files supplied") ∧
    (∃ m, summarize (fun _ => none) timegm ⟨["a.log"], none, none, none, none, 10⟩ =
      .error (.resourceAcquisitionFailure m)) :=
  ⟨((summarize_error_cases (fun _ => none) (fun _ => none) timegm
      ⟨[], none, none, none, none, 10⟩).1 rfl).1,
   (summarize_error_cases (fun _ => none) (fun _ => none) timegm
      ⟨["a.log"], none, none, none, none, 10⟩).2.2.2.2
     (by decide) (by decide) (by decide)
     (fun s u hs _ => Option.noConfusion hs)
     ⟨"a.log", by simp, rfl⟩⟩

lemma tallyGet_bump (t : LevelTally) (lvl l : LogLevel) :
    tallyGet (tallyBump t lvl) l = tallyGet t l + (if lvl = l then 1 else 0) := by
  cases lvl <;> cases l <;> simp [tallyBump, tallyGet]

/-- The per-line predicate counted by the level tally. -/
def countsFor (le : EpochFn) (cfg : FilterConfig) (l : LogLevel) (line : List Char) : Bool :=
  line_passes le cfg line && decide (detect_level line = some l)

lemma step_line_stats (le : EpochFn) (cfg : FilterConfig) (st : ScanState) (line : List Char) :
    (step_line le cfg st line).files_processed = st.files_processed ∧
    (step_line le cfg st line).total_lines = st.total_lines + 1 ∧
    (step_line le cfg st line).matched_lines =
      st.matched_lines + (if line_passes le cfg line then 1 else 0) ∧
    (∀ l, tallyGet (step_line le cfg st line).tally l =
      tallyGet st.tally l + (if countsFor le cfg l line then 1 else 0)) ∧
    (step_line le cfg st line).freq =
      (if line_passes le cfg line then bump st.freq (normalize_line line) else st.freq) := by
  unfold step_line
  by_cases hp : line_passes le cfg line
  · simp only [hp, if_true, if_pos]
    refine ⟨by trivial, by trivial, by trivial, ?_, by trivial⟩
    intro l
    cases hd : detect_level line with
    | none => simp [countsFor, hp, hd]
    | some lvl =>
        rw [tallyGet_bump]
        by_cases hl : lvl = l
        · simp [countsFor, hp, hd, hl]
        · simp [countsFor, hp, hd, hl]
  · simp [hp, countsFor]

lemma scan_lines_stats (le : EpochFn) (cfg : FilterConfig) (lines : List (List Char)) :
    ∀ st : ScanState,
    (lines.foldl (step_line le cfg) st).files_processed = st.files_processed ∧
    (lines.foldl (step_line le cfg) st).total_lines = st.total_lines + lines.length ∧
    (lines.foldl (step_line le cfg) st).matched_lines =
      st.matched_lines + lines.countP (line_passes le cfg) ∧
    (∀ l, tallyGet (lines.foldl (step_line le cfg) st).tally l =
      tallyGet st.tally l + lines.countP (countsFor le cfg l)) ∧
    (lines.foldl (step_line le cfg) st).freq =
      ((lines.filter (line_passes le cfg)).map normalize_line).foldl bump st.freq := by
  induction lines with
  | nil => intro st; simp
  | cons x rest ih =>
      intro st
      obtain ⟨s1, s2, s3, s4, s5⟩ := step_line_stats le cfg st x
      obtain ⟨i1, i2, i3, i4, i5⟩ := ih (step_line le cfg st x)
      rw [List.foldl_cons]
      refine ⟨i1.trans s1, ?_, ?_, ?_, ?_⟩
      · rw [i2, s2, List.length_cons]; omega
      · rw [i3, s3, List.countP_cons]; omega
      · intro l
        rw [i4 l, s4 l, List.countP_cons]
        omega
      · rw [i5, s5]
        by_cases hp : line_passes le cfg x
        · simp [hp]
        · simp [hp]

lemma scan_files_ok_stats (fs : FileSystem) (le : EpochFn) (cfg : FilterConfig) :
    ∀ (paths : List String) (st st' : ScanState),
    scan_files fs le cfg st paths = .ok st' →
    st'.files_processed = st.files_processed + paths.length ∧
    st'.total_lines = st.total_lines + (allLines fs paths).length ∧
    st'.matched_lines = st.matched_lines + (allLines fs paths).countP (line_passes le cfg) ∧
    (∀ l, tallyGet st'.tally l =
      tallyGet st.tally l + (allLines fs paths).countP (countsFor le cfg l)) ∧
    st'.freq =
      (((allLines fs paths).filter (line_passes le cfg)).map normalize_line).foldl
        bump st.freq := by
  intro paths
  induction paths with
  | nil =>
      intro st st' h
      unfold scan_files at h
      injection h with h
      subst h
      simp [allLines]
  | cons q rest ih =>
      intro st st' h
      unfold scan_files at h
      cases hq : fs q with
      | none => rw [hq] at h; cases h
      | some lines =>
          rw [hq] at h
          obtain ⟨i1, i2, i3, i4, i5⟩ := ih (scan_file le cfg st lines) st' h
          have hall : allLines fs (q :: rest) = lines ++ allLines fs rest := by
            simp [allLines, hq]
          obtain ⟨f1, f2, f3, f4, f5⟩ := scan_lines_stats le cfg lines
            { st with files_processed := st.files_processed + 1 }
          dsimp only at f1 f2 f3 f4 f5
          rw [hall]
          unfold scan_file at i1 i2 i3 i4 i5
          refine ⟨?_, ?_, ?_, ?_, ?_⟩
          · rw [i1, f1, List.length_cons]; omega
          · rw [i2, f2, List.length_append]; omega
          · rw [i3, f3, List.countP_append]; omega
          · intro l
            rw [i4 l, f4 l, List.countP_append]
            omega
          · rw [i5, f5, List.filter_append, List.map_append, List.foldl_append]

lemma summarize_ok_inv (fs : FileSystem) (le : EpochFn) (o : SummarizeOptions)
    (r : SummaryResult) (h : summarize fs le o = .ok r) :
    run_scan fs le (cfgOf le o) o = .ok r := by
  unfold summarize at h
  split at h
  · cases h
  split at h
  · cases h
  split at h
  · cases h
  dsimp only at h
  split at h
  case _ s u hs hu =>
    split at h
    · cases h
    rw [← h]
    unfold cfgOf
    rw [hs, hu]
  case _ s u hne =>
    rw [← h]
    unfold cfgOf
    rfl

lemma run_scan_ok_inv (fs : FileSystem) (le : EpochFn) (cfg : FilterConfig)
    (o : SummarizeOptions) (r : SummaryResult) (h : run_scan fs le cfg o = .ok r) :
    ∃ st, scan_files fs le cfg ScanState.init o.files = .ok st ∧
      r.files_processed = st.files_processed ∧
      r.total_lines = st.total_lines ∧
      r.matched_lines = st.matched_lines ∧
      r.matched_by_level = st.tally ∧
      r.top_lines = select_top o.top_n (st.freq.map (fun kv => ⟨kv.1, kv.2⟩)) := by
  unfold run_scan at h
  split at h
  · cases h
  case _ st hst =>
    injection h with h
    exact ⟨st, hst, by rw [← h], by rw [← h], by rw [← h], by rw [← h], by rw [← h]⟩

lemma bump_sum (freq : List (List Char × Nat)) (key : List Char) :
    freqSum (bump freq key) = freqSum freq + 1 := by
  induction freq with
  | nil => simp [bump, freqSum]
  | cons kv rest ih =>
      obtain ⟨k, c⟩ := kv
      by_cases hk : k = key
      · simp only [bump, if_pos hk, freqSum, List.map_cons, List.sum_cons]
        omega
      · simp only [bump, if_neg hk, freqSum, List.map_cons, List.sum_cons] at ih ⊢
        omega

lemma foldl_bump_sum (keys : List (List Char)) :
    ∀ freq, freqSum (keys.foldl bump freq) = freqSum freq + keys.length := by
  induction keys with
  | nil => intro freq; simp
  | cons k rest ih =>
      intro freq
      rw [List.foldl_cons, ih, bump_sum, List.length_cons]
      omega

/-- C6: on every successful run, matched_lines is at most total_lines, the
total count stored in the frequency aggregate equals matched_lines, and
files_processed equals the number of input files. -/
theorem summarize_result_invariants (fs : FileSystem) (le : EpochFn)
    (o : SummarizeOptions) (r : SummaryResult) (h : summarize fs le o = .ok r) :
    r.matched_lines ≤ r.total_lines ∧
    r.files_processed = o.files.length ∧
    ∃ st, scan_files fs le (cfgOf le o) ScanState.init o.files = .ok st ∧
      freqSum st.freq = r.matched_lines := by
  obtain ⟨st, hst, hf, ht, hm, -, -⟩ :=
    run_scan_ok_inv fs le (cfgOf le o) o r (summarize_ok_inv fs le o r h)
  obtain ⟨s1, s2, s3, -, s5⟩ :=
    scan_files_ok_stats fs le (cfgOf le o) o.files ScanState.init st hst
  simp only [ScanState.init] at s1 s2 s3 s5
  refine ⟨?_, ?_, st, hst, ?_⟩
  · rw [hm, ht, s2, s3]
    simpa using List.countP_le_length (line_passes le (cfgOf le o))
  · rw [hf, s1]
    omega
  · rw [s5, hm, s3, foldl_bump_sum]
    simp [freqSum, List.countP_eq_length_filter]

/-- Witness for C6 on a concrete one-file run. -/
theorem summarize_result_invariants_witness :
    summarize
      (fun p => if p = "a.log" then
         some ["INFO one".toList, "two 7".toList] else none)
      timegm ⟨["a.log"], none, none, none, none, 10⟩ =
      .ok ⟨1, 2, 2, ⟨0, 0, 1, 0⟩,
        [⟨"INFO one".toList, 1⟩, ⟨"two <num>".toList, 1⟩]⟩ ∧
    (1 : Nat) = ["a.log"].length :=
  ⟨by decide,
   (summarize_result_invariants
      (fun p => if p = "a.log" then
         some ["INFO one".toList, "two 7".toList] else none)
      timegm ⟨["a.log"], none, none, none, none, 10⟩
      ⟨1, 2, 2, ⟨0, 0, 1, 0⟩,
        [⟨"INFO one".toList, 1⟩, ⟨"two <num>".toList, 1⟩]⟩
      (by decide)).2.1⟩

lemma lexLt_nil_right (a : List Char) : lexLt a [] = false := by
  cases a <;> rfl

lemma lexLt_cons_cons (x y : Char) (xs ys : List Char) :
    lexLt (x :: xs) (y :: ys) =
      (if x < y then true else if y < x then false else lexLt xs ys) := rfl

lemma lexLt_asymm : ∀ {a b : List Char}, lexLt a b = true → lexLt b a = false
  | [], [], h => by cases h
  | [], _ :: _, _ => lexLt_nil_right _
  | _ :: _, [], h => by cases h
  | x :: xs, y :: ys, h => by
      rw [lexLt_cons_cons] at h
      rw [lexLt_cons_cons]
      by_cases hxy : x < y
      · rw [if_neg (lt_asymm hxy), if_pos hxy]
      · rw [if_neg hxy] at h
        by_cases hyx : y < x
        · rw [if_pos hyx] at h; cases h
        · rw [if_neg hyx] at h
          rw [if_neg hyx, if_neg hxy]
          exact lexLt_asymm h

lemma lexLt_conn : ∀ {a b : List Char}, lexLt a b = false → lexLt b a = false → a = b
  | [], [], _, _ => rfl
  | [], _ :: _, h, _ => by cases h
  | _ :: _, [], _, h => by cases h
  | x :: xs, y :: ys, h1, h2 => by
      rw [lexLt_cons_cons] at h1 h2
      by_cases hxy : x < y
      · rw [if_pos hxy] at h1; cases h1
      · by_cases hyx : y < x
        · rw [if_pos hyx] at h2; cases h2
        · rw [if_neg hxy, if_neg hyx] at h1
          rw [if_neg hyx, if_neg hxy] at h2
          have hc : x = y := le_antisymm (not_lt.mp hyx) (not_lt.mp hxy)
          rw [hc, lexLt_conn h1 h2]

lemma lexLt_nlt_trans :
    ∀ {a b c : List Char}, lexLt b a = false → lexLt c b = false → lexLt c a = false
  | [], _, c, _, _ => lexLt_nil_right c
  | _ :: _, [], _, h1, _ => Bool.noConfusion h1
  | _ :: _, _ :: _, [], _, h2 => Bool.noConfusion h2
  | _ :: _, _ :: _, _ :: _, h1, h2 => by
      rename_i x xs y ys z zs
      rw [lexLt_cons_cons] at h1 h2 ⊢
      by_cases hyx : y < x
      · rw [if_pos hyx] at h1; cases h1
      · by_cases hzy : z < y
        · rw [if_pos hzy] at h2; cases h2
        · have hxy : x ≤ y := not_lt.mp hyx
          have hyz : y ≤ z := not_lt.mp hzy
          have hzx : ¬ z < x := not_lt.mpr (hxy.trans hyz)
          rw [if_neg hzx]
          by_cases hxz : x < z
          · rw [if_pos hxz]
          · rw [if_neg hxz]
            have hxz2 : x = z := le_antisymm (hxy.trans hyz) (not_lt.mp hxz)
            have hx_eq_y : x = y := le_antisymm hxy (hxz2 ▸ hyz)
            rw [if_neg hyx, if_neg (hx_eq_y ▸ hyx)] at h1
            rw [if_neg hzy, if_neg ((hx_eq_y.symm.trans hxz2).symm ▸ hzy)] at h2
            exact lexLt_nlt_trans h1 h2

lemma topline_le_iff (a b : TopLine) :
    topline_le a b = true ↔
      (b.count < a.count ∨
       (a.count = b.count ∧ lexLt b.normalized_line a.normalized_line = false)) := by
  unfold topline_le topline_cmp
  by_cases h : b.count = a.count
  · simp [h, lt_irrefl]
  · constructor
    · intro hle
      simp only [if_pos (by omega : b.count ≠ a.count), Bool.not_eq_true',
        decide_eq_false_iff_not] at hle
      left; omega
    · intro hor
      have hlt : b.count < a.count := by
        rcases hor with h1 | ⟨h1, _⟩
        · exact h1
        · omega
      simp only [if_pos (by omega : b.count ≠ a.count), Bool.not_eq_true',
        decide_eq_false_iff_not]
      omega

instance : IsTotal TopLine TlLe where
  total a b := by
    unfold TlLe
    rw [topline_le_iff, topline_le_iff]
    rcases Nat.lt_trichotomy a.count b.count with h | h | h
    · right; left; exact h
    · by_cases hl : lexLt b.normalized_line a.normalized_line = true
      · right; right; exact ⟨h.symm, lexLt_asymm hl⟩
      · left; right; exact ⟨h, by simpa using hl⟩
    · left; left; exact h

instance : IsTrans TopLine TlLe where
  trans a b c := by
    unfold TlLe
    rw [topline_le_iff, topline_le_iff, topline_le_iff]
    rintro (h1 | ⟨h1, h1l⟩) (h2 | ⟨h2, h2l⟩)
    · left; omega
    · left; omega
    · left; omega
    · right
      exact ⟨by omega, lexLt_nlt_trans h1l h2l⟩

instance : IsAntisymm TopLine TlLe where
  antisymm a b := by
    unfold TlLe
    rw [topline_le_iff, topline_le_iff]
    rintro (h1 | ⟨h1, h1l⟩) (h2 | ⟨h2, h2l⟩) <;> try omega
    have hk := lexLt_conn h1l h2l
    obtain ⟨ka, ca⟩ := a
    obtain ⟨kb, cb⟩ := b
    simp only at h1 hk
    rw [hk, h1]

/-- C10: determinism.  The result of summarize does not depend on anything
but the option values and the per-path line sequences (filesystems agreeing
on the input paths give identical results), and top-K selection gives the
same output on any two permutations of the frequency entries, so the
unordered map's iteration order cannot influence top_lines. -/
theorem summarize_deterministic :
    (∀ (fs fs' : FileSystem) (le : EpochFn) (o : SummarizeOptions),
       (∀ p ∈ o.files, fs p = fs' p) → summarize fs le o = summarize fs' le o) ∧
    (∀ (n : Nat) (e₁ e₂ : List TopLine), e₁.Perm e₂ →
       select_top n e₁ = select_top n e₂) := by
  constructor
  · have hscan : ∀ (le : EpochFn) (cfg : FilterConfig) (fs fs' : FileSystem)
        (paths : List String), (∀ p ∈ paths, fs p = fs' p) → ∀ st,
        scan_files fs le cfg st paths = scan_files fs' le cfg st paths := by
      intro le cfg fs fs' paths
      induction paths with
      | nil => intro _ _; rfl
      | cons q rest ih =>
          intro hag st
          unfold scan_files
          rw [hag q (List.mem_cons_self q rest)]
          cases fs' q with
          | none => rfl
          | some lines => exact ih (fun p hp => hag p (List.mem_cons_of_mem q hp)) _
    intro fs fs' le o hag
    unfold summarize
    by_cases h1 : o.files = []
    · rw [if_pos h1, if_pos h1]
    rw [if_neg h1, if_neg h1]
    by_cases h2 : o.since.map (parse_timestamp_exact le) = some none
    · rw [if_pos h2, if_pos h2]
    rw [if_neg h2, if_neg h2]
    by_cases h3 : o.until_.map (parse_timestamp_exact le) = some none
    · rw [if_pos h3, if_pos h3]
    rw [if_neg h3, if_neg h3]
    dsimp only
    have hrun : ∀ cfg, run_scan fs le cfg o = run_scan fs' le cfg o := by
      intro cfg
      unfold run_scan
      rw [hscan le cfg fs fs' o.files hag ScanState.init]
    rcases (o.since.map (parse_timestamp_exact le)).join with _ | s <;>
      rcases (o.until_.map (parse_timestamp_exact le)).join with _ | u <;>
        dsimp only <;>
        first
        | exact hrun _
        | (by_cases hgt : s > u
           · simp only [if_pos hgt]
           · simp only [if_neg hgt]; exact hrun _)
  · intro n e₁ e₂ hperm
    unfold select_top
    rw [hperm.length_eq]
    by_cases h0 : min n e₂.length = 0
    · rw [if_pos h0, if_pos h0]
    rw [if_neg h0, if_neg h0]
    have hs₁ := List.sorted_insertionSort TlLe e₁
    have hs₂ := List.sorted_insertionSort TlLe e₂
    have hp : (List.insertionSort TlLe e₁).Perm (List.insertionSort TlLe e₂) :=
      ((List.perm_insertionSort TlLe e₁).trans hperm).trans
        (List.perm_insertionSort TlLe e₂).symm
    rw [List.eq_of_perm_of_sorted hp hs₁ hs₂]

/-- Witness for C10 on two permuted entry lists and two agreeing filesystems. -/
theorem summarize_deterministic_witness :
    select_top 1 [(⟨'b' :: [], 1⟩ : TopLine), ⟨'a' :: [], 2⟩] =
      select_top 1 [(⟨'a' :: [], 2⟩ : TopLine), ⟨'b' :: [], 1⟩] :=
  summarize_deterministic.2 1 _ _ (by decide)

lemma bump_keys (freq : List (List Char × Nat)) (key : List Char) :
    (bump freq key).map Prod.fst =
      (if key ∈ freq.map Prod.fst then freq.map Prod.fst
       else freq.map Prod.fst ++ [key]) := by
  induction freq with
  | nil => simp [bump]
  | cons kv rest ih =>
      obtain ⟨k, c⟩ := kv
      by_cases hk : k = key
      · simp [bump, hk]
      · simp only [bump, if_neg hk, List.map_cons, List.mem_cons]
        rw [ih]
        by_cases hmem : key ∈ rest.map Prod.fst
        · simp [hmem, hk]
        · have hor : ¬ (key = k ∨ key ∈ rest.map Prod.fst) := by
            rintro (hc | hc)
            · exact hk hc.symm
            · exact hmem hc
          rw [if_neg hor, if_neg hmem, List.cons_append]

lemma bump_keys_nodup (freq : List (List Char × Nat)) (key : List Char)
    (h : (freq.map Prod.fst).Nodup) : ((bump freq key).map Prod.fst).Nodup := by
  rw [bump_keys]
  by_cases hmem : key ∈ freq.map Prod.fst
  · rwa [if_pos hmem]
  · rw [if_neg hmem]
    refine List.Nodup.append h (List.nodup_singleton key) ?_
    intro x hx hy
    simp only [List.mem_singleton] at hy
    exact hmem (hy ▸ hx)

lemma foldl_bump_nodup (keys : List (List Char)) :
    ∀ freq, (freq.map Prod.fst).Nodup → ((keys.foldl bump freq).map Prod.fst).Nodup := by
  induction keys with
  | nil => intro freq h; exact h
  | cons k rest ih =>
      intro freq h
      rw [List.foldl_cons]
      exact ih (bump freq k) (bump_keys_nodup freq k h)

lemma select_top_length (top_n : Nat) (entries : List TopLine) :
    (select_top top_n entries).length = min top_n entries.length := by
  unfold select_top
  by_cases h0 : min top_n entries.length = 0
  · rw [if_pos h0, h0, List.length_nil]
  · rw [if_neg h0, List.length_take,
      (List.perm_insertionSort TlLe entries).length_eq]
    omega

lemma select_top_sorted (top_n : Nat) (entries : List TopLine) :
    List.Sorted TlLe (select_top top_n entries) := by
  unfold select_top
  by_cases h0 : min top_n entries.length = 0
  · rw [if_pos h0]; exact List.sorted_nil
  · rw [if_neg h0]
    exact List.Pairwise.sublist (List.take_sublist _ _)
      (List.sorted_insertionSort TlLe entries)

/-- C1: on every successful run, top_lines is sorted by count descending with
ties broken by normalized line ascending (byte-wise); the run's frequency
aggregate st.freq (pinned by the deterministic scan of the input files) has
pairwise-distinct normalized keys, top_lines is the top-K selection from
exactly that aggregate, and its length is min(top, size of the aggregate),
that is, min(top, number of distinct normalized keys); and top = 0 always
yields an empty top_lines. -/
theorem top_lines_ordered (fs : FileSystem) (le : EpochFn) (o : SummarizeOptions)
    (r : SummaryResult) (h : summarize fs le o = .ok r) :
    List.Sorted (fun a b : TopLine =>
       b.count ≤ a.count ∧
       (a.count = b.count → lexLt b.normalized_line a.normalized_line = false))
      r.top_lines ∧
    (∃ st : ScanState,
       scan_files fs le (cfgOf le o) ScanState.init o.files = .ok st ∧
       (st.freq.map (fun kv => (⟨kv.1, kv.2⟩ : TopLine))).Pairwise
         (fun a b => a.normalized_line ≠ b.normalized_line) ∧
       r.top_lines = select_top o.top_n
         (st.freq.map (fun kv => (⟨kv.1, kv.2⟩ : TopLine))) ∧
       r.top_lines.length =
         min o.top_n (st.freq.map (fun kv => (⟨kv.1, kv.2⟩ : TopLine))).length) ∧
    (o.top_n = 0 → r.top_lines = []) := by
  obtain ⟨st, hst, -, -, -, -, htop⟩ :=
    run_scan_ok_inv fs le (cfgOf le o) o r (summarize_ok_inv fs le o r h)
  have hsorted : List.Sorted TlLe r.top_lines := by
    rw [htop]; exact select_top_sorted _ _
  refine ⟨?_, ⟨st, hst, ?_, htop, ?_⟩, ?_⟩
  · refine hsorted.imp ?_
    intro a b hab
    unfold TlLe at hab
    rw [topline_le_iff] at hab
    rcases hab with h1 | ⟨h1, h2⟩
    · constructor
      · omega
      · intro he; omega
    · exact ⟨le_of_eq h1.symm, fun _ => h2⟩
  · obtain ⟨s1, s2, s3, s4, s5⟩ :=
      scan_files_ok_stats fs le (cfgOf le o) o.files ScanState.init st hst
    have hnodup : (st.freq.map Prod.fst).Nodup := by
      rw [s5]
      exact foldl_bump_nodup _ _ (by simp [ScanState.init])
    have hpair : st.freq.Pairwise (fun kv kv' => kv.1 ≠ kv'.1) :=
      (List.pairwise_map).mp hnodup
    exact hpair.map _ (fun a b hab => hab)
  · rw [htop, select_top_length]
  · intro h0
    rw [htop]
    unfold select_top
    rw [h0]
    simp

/-- Witness for C1 on a concrete successful run. -/
theorem top_lines_ordered_witness :
    summarize
      (fun p => if p = "w.log" then
         some ["b 1".toList, "a 2".toList, "b 3".toList] else none)
      timegm ⟨["w.log"], none, none, none, none, 2⟩ =
      .ok ⟨1, 3, 3, ⟨0, 0, 0, 0⟩,
        [⟨"b <num>".toList, 2⟩, ⟨"a <num>".toList, 1⟩]⟩ ∧
    List.Sorted (fun a b : TopLine =>
       b.count ≤ a.count ∧
       (a.count = b.count → lexLt b.normalized_line a.normalized_line = false))
      [(⟨"b <num>".toList, 2⟩ : TopLine), ⟨"a <num>".toList, 1⟩] :=
  ⟨by decide,
   by
     have := (top_lines_ordered
       (fun p => if p = "w.log" then
          some ["b 1".toList, "a 2".toList, "b 3".toList] else none)
       timegm ⟨["w.log"], none, none, none, none, 2⟩
       ⟨1, 3, 3, ⟨0, 0, 0, 0⟩,
         [⟨"b <num>".toList, 2⟩, ⟨"a <num>".toList, 1⟩]⟩
       (by decide)).1
     simp only at this
     exact this⟩

/-! Normalizer idempotence development. -/

/-- Whitespace characters of the string are all plain spaces. -/
abbrev wsOnlySpace (l : List Char) : Prop :=
  ∀ c ∈ l, isWsp c = true → c = ' '

/-- No two adjacent whitespace characters. -/
abbrev noAdjWs (l : List Char) : Prop :=
  l.Chain' (fun a b => ¬ (isWsp a = true ∧ isWsp b = true))

/-- The first character, when present, is not whitespace. -/
abbrev headNotWs (l : List Char) : Prop :=
  ∀ c, l.head? = some c → isWsp c = false

/-- The last character, when present, is not whitespace. -/
abbrev lastNotWs (l : List Char) : Prop :=
  ∀ c, l.getLast? = some c → isWsp c = false

/-- A whitespace-canonical string: trimmed at both ends, interior whitespace
only as isolated single spaces. -/
abbrev WsCanon (l : List Char) : Prop :=
  wsOnlySpace l ∧ noAdjWs l ∧ headNotWs l ∧ lastNotWs l

lemma head?_dropWhile_false (p : Char → Bool) :
    ∀ (l : List Char) (c : Char), (l.dropWhile p).head? = some c → p c = false := by
  intro l
  induction l with
  | nil => intro c hc; cases hc
  | cons x xs ih =>
      intro c hc
      rw [List.dropWhile_cons] at hc
      by_cases hx : p x
      · rw [if_pos hx] at hc
        exact ih c hc
      · rw [if_neg hx] at hc
        injection hc with hc
        rw [hc] at hx
        simpa using hx

lemma getLast?_of_suffix {l₂ l₁ : List Char} (h : l₂ <:+ l₁) (c : Char)
    (hc : l₂.getLast? = some c) : l₁.getLast? = some c := by
  obtain ⟨t, rfl⟩ := h
  rw [List.getLast?_append, hc]
  rfl

lemma trim_headNotWs (input : List Char) : headNotWs (trim input) := by
  intro c hc
  unfold trim at hc
  rw [List.head?_reverse] at hc
  have hsuf := List.dropWhile_suffix (l := (input.dropWhile isWsp).reverse) isWsp
  have h1 := getLast?_of_suffix hsuf c hc
  rw [List.getLast?_reverse] at h1
  exact head?_dropWhile_false isWsp input c h1

lemma trim_lastNotWs (input : List Char) : lastNotWs (trim input) := by
  intro c hc
  unfold trim at hc
  rw [List.getLast?_reverse] at hc
  exact head?_dropWhile_false isWsp (input.dropWhile isWsp).reverse c hc

lemma collapseLoop_wsOnly : ∀ (l : List Char) (b : Bool), wsOnlySpace (collapseLoop l b) := by
  intro l
  induction l with
  | nil => intro b c hc; cases hc
  | cons x xs ih =>
      intro b c hc hwc
      unfold collapseLoop at hc
      by_cases hx : isWsp x
      · rw [if_pos hx] at hc
        rcases List.mem_append.mp hc with hm | hm
        · cases b
          · simp only [if_neg Bool.false_ne_true, List.mem_singleton] at hm
            exact hm
          · simp at hm
        · exact ih true c hm hwc
      · rw [if_neg hx] at hc
        rcases List.mem_cons.mp hc with rfl | hm
        · rw [hwc] at hx; cases hx rfl
        · exact ih false c hm hwc

lemma collapseLoop_head_true :
    ∀ (l : List Char) (c : Char), (collapseLoop l true).head? = some c → isWsp c = false := by
  intro l
  induction l with
  | nil => intro c hc; cases hc
  | cons x xs ih =>
      intro c hc
      unfold collapseLoop at hc
      by_cases hx : isWsp x
      · rw [if_pos hx] at hc
        simp only [if_pos rfl, List.nil_append] at hc
        exact ih c hc
      · rw [if_neg hx] at hc
        injection hc with hc
        rw [hc] at hx
        simpa using hx

lemma collapseLoop_chain : ∀ (l : List Char) (b : Bool), noAdjWs (collapseLoop l b) := by
  intro l
  induction l with
  | nil => intro b; exact List.chain'_nil
  | cons x xs ih =>
      intro b
      unfold collapseLoop
      by_cases hx : isWsp x
      · rw [if_pos hx]
        cases b
        · simp only [if_neg Bool.false_ne_true, List.singleton_append]
          refine List.chain'_cons'.mpr ⟨?_, ih true⟩
          intro y hy hcon
          exact absurd (collapseLoop_head_true xs y hy) (by simp [hcon.2])
        · simp only [if_pos rfl, List.nil_append]
          exact ih true
      · rw [if_neg hx]
        refine List.chain'_cons'.mpr ⟨?_, ih false⟩
        intro y _ hcon
        rw [hcon.1] at hx
        exact hx rfl

lemma collapseLoop_head_of (t : List Char) (h : headNotWs t) :
    headNotWs (collapseLoop t false) := by
  cases t with
  | nil => intro c hc; cases hc
  | cons x xs =>
      intro c hc
      have hx : isWsp x = false := h x rfl
      unfold collapseLoop at hc
      rw [if_neg (by simp [hx])] at hc
      injection hc with hc
      rw [← hc]
      exact hx

lemma mem_of_getLast?' : ∀ {l : List Char} {a : Char}, l.getLast? = some a → a ∈ l
  | [x], a, h => by
      rw [List.getLast?_singleton] at h
      injection h with h
      rw [← h]
      exact List.mem_singleton.mpr rfl
  | x :: y :: ys, a, h => by
      rw [List.getLast?_cons_cons] at h
      exact List.mem_cons_of_mem x (mem_of_getLast?' h)

lemma getLast?_cons_of_ne_nil {x : Char} {l : List Char} (h : l ≠ []) :
    (x :: l).getLast? = l.getLast? := by
  cases l with
  | nil => exact absurd rfl h
  | cons y ys => exact List.getLast?_cons_cons

lemma collapseLoop_eq_nil :
    ∀ (l : List Char) (b : Bool), collapseLoop l b = [] → ∀ c ∈ l, isWsp c = true := by
  intro l
  induction l with
  | nil => intro b _ c hc; cases hc
  | cons x xs ih =>
      intro b h c hc
      unfold collapseLoop at h
      by_cases hx : isWsp x
      · rw [if_pos hx] at h
        cases b
        · simp at h
        · simp only [if_pos rfl, List.nil_append] at h
          rcases List.mem_cons.mp hc with rfl | hm
          · exact hx
          · exact ih true h c hm
      · rw [if_neg hx] at h
        cases h


lemma collapseLoop_last (l : List Char) :
    ∀ (b : Bool), lastNotWs l → lastNotWs (collapseLoop l b) := by
  induction l with
  | nil => intro b _ c hc; cases hc
  | cons x xs ih =>
      intro b hl
      cases xs with
      | nil =>
          have hx : isWsp x = false := hl x rfl
          unfold collapseLoop
          rw [if_neg (by simp [hx])]
          intro c hc
          unfold collapseLoop at hc
          injection hc with hc
          rw [← hc]
          exact hx
      | cons y ys =>
          have hxs : lastNotWs (y :: ys) := by
            intro c hc
            refine hl c ?_
            rw [List.getLast?_cons_cons]
            exact hc
          have hne : collapseLoop (y :: ys) true ≠ [] ∧
              collapseLoop (y :: ys) false ≠ [] := by
            constructor <;>
            · intro hnil
              obtain ⟨d, hd⟩ := Option.isSome_iff_exists.mp
                (List.getLast?_isSome.mpr (by simp : (y :: ys) ≠ []))
              have hdm := mem_of_getLast?' hd
              have := collapseLoop_eq_nil (y :: ys) _ hnil d hdm
              rw [hxs d hd] at this
              cases this
          unfold collapseLoop
          by_cases hx : isWsp x
          · rw [if_pos hx]
            cases b
            · simp only [if_neg Bool.false_ne_true, List.singleton_append]
              intro c hc
              rw [getLast?_cons_of_ne_nil hne.1] at hc
              exact ih true hxs c hc
            · simp only [if_pos rfl, List.nil_append]
              exact ih true hxs
          · rw [if_neg hx]
            intro c hc
            rw [getLast?_cons_of_ne_nil hne.2] at hc
            exact ih false hxs c hc

lemma trim_and_collapse_canon (input : List Char) :
    WsCanon (trim_and_collapse_ws input) := by
  refine ⟨collapseLoop_wsOnly _ _, collapseLoop_chain _ _,
    collapseLoop_head_of _ (trim_headNotWs input), ?_⟩
  exact collapseLoop_last (trim input) false (trim_lastNotWs input)

lemma collapseLoop_id (l : List Char) (h1 : wsOnlySpace l) (h2 : noAdjWs l) :
    ∀ b : Bool, (b = true → headNotWs l) → collapseLoop l b = l := by
  induction l with
  | nil => intro b _; rfl
  | cons x xs ih =>
      intro b hb
      unfold collapseLoop
      by_cases hx : isWsp x
      · cases b
        · rw [if_pos hx]
          simp only [if_neg Bool.false_ne_true, List.singleton_append]
          have hxsp : x = ' ' := h1 x (List.mem_cons_self x xs) hx
          rw [← hxsp]
          congr 1
          refine ih (fun c hc hwc => h1 c (List.mem_cons_of_mem x hc) hwc)
            (h2.tail) true ?_
          intro _ c hc
          cases xs with
          | nil => cases hc
          | cons y ys =>
              injection hc with hc
              have := List.chain'_cons.mp h2
              by_cases hy : isWsp y
              · exact absurd ⟨hx, hy⟩ this.1
              · rw [← hc]
                simpa using hy
        · have := hb rfl x rfl
          rw [hx] at this
          cases this
      · rw [if_neg hx]
        congr 1
        exact ih (fun c hc hwc => h1 c (List.mem_cons_of_mem x hc) hwc)
          (h2.tail) false (fun hfalse => by cases hfalse)

lemma dropWhile_eq_self_of_head (l : List Char) (h : headNotWs l) :
    l.dropWhile isWsp = l := by
  cases l with
  | nil => rfl
  | cons x xs =>
      rw [List.dropWhile_cons, if_neg (by simp [h x rfl])]

lemma trim_eq_self (l : List Char) (h : headNotWs l) (h2 : lastNotWs l) :
    trim l = l := by
  unfold trim
  rw [dropWhile_eq_self_of_head l h]
  have hrev : headNotWs l.reverse := by
    intro c hc
    rw [List.head?_reverse] at hc
    exact h2 c hc
  rw [dropWhile_eq_self_of_head l.reverse hrev, List.reverse_reverse]

lemma trim_and_collapse_id (l : List Char) (h : WsCanon l) :
    trim_and_collapse_ws l = l := by
  obtain ⟨h1, h2, h3, h4⟩ := h
  unfold trim_and_collapse_ws
  rw [trim_eq_self l h3 h4]
  exact collapseLoop_id l h1 h2 false (fun hfalse => by cases hfalse)

lemma numLoop_no_digit :
    ∀ (l : List Char) (b : Bool), ∀ c ∈ numLoop l b, isDigitC c = false := by
  intro l
  induction l with
  | nil => intro b c hc; cases hc
  | cons x xs ih =>
      intro b c hc
      unfold numLoop at hc
      by_cases hx : isDigitC x
      · rw [if_pos hx] at hc
        rcases List.mem_append.mp hc with hm | hm
        · cases b
          · simp only [if_neg Bool.false_ne_true] at hm
            fin_cases hm <;> decide
          · simp at hm
        · exact ih true c hm
      · rw [if_neg hx] at hc
        rcases List.mem_cons.mp hc with rfl | hm
        · simpa using hx
        · exact ih false c hm

lemma numLoop_id (l : List Char) (h : ∀ c ∈ l, isDigitC c = false) :
    ∀ b : Bool, numLoop l b = l := by
  induction l with
  | nil => intro b; rfl
  | cons x xs ih =>
      intro b
      unfold numLoop
      rw [if_neg (by simp [h x (List.mem_cons_self x xs)])]
      congr 1
      exact ih (fun c hc => h c (List.mem_cons_of_mem x hc)) false

lemma head?_numLoop_false (l : List Char) :
    (numLoop l false).head? = l.head?.map (fun c => if isDigitC c then '<' else c) := by
  cases l with
  | nil => rfl
  | cons x xs =>
      by_cases hx : isDigitC x
      · simp [numLoop, hx]
      · simp [numLoop, hx]

lemma numLoop_mem :
    ∀ (l : List Char) (b : Bool), ∀ c ∈ numLoop l b,
      c ∈ l ∨ c ∈ ('<' :: 'n' :: 'u' :: 'm' :: '>' :: []) := by
  intro l
  induction l with
  | nil => intro b c hc; cases hc
  | cons x xs ih =>
      intro b c hc
      unfold numLoop at hc
      by_cases hx : isDigitC x
      · rw [if_pos hx] at hc
        rcases List.mem_append.mp hc with hm | hm
        · cases b
          · simp only [if_neg Bool.false_ne_true] at hm
            exact Or.inr hm
          · simp at hm
        · rcases ih true c hm with h | h
          · exact Or.inl (List.mem_cons_of_mem x h)
          · exact Or.inr h
      · rw [if_neg hx] at hc
        rcases List.mem_cons.mp hc with rfl | hm
        · exact Or.inl (List.mem_cons_self c xs)
        · rcases ih false c hm with h | h
          · exact Or.inl (List.mem_cons_of_mem x h)
          · exact Or.inr h

lemma numLoop_wsOnly (l : List Char) (h : wsOnlySpace l) (b : Bool) :
    wsOnlySpace (numLoop l b) := by
  intro c hc hwc
  rcases numLoop_mem l b c hc with hm | hm
  · exact h c hm hwc
  · fin_cases hm <;> simp_all [isWsp]

lemma numLoop_chain (l : List Char) (h : noAdjWs l) :
    ∀ b : Bool, noAdjWs (numLoop l b) := by
  induction l with
  | nil => intro b; exact List.chain'_nil
  | cons x xs ih =>
      intro b
      unfold numLoop
      by_cases hx : isDigitC x
      · rw [if_pos hx]
        have hrest : noAdjWs (numLoop xs true) := ih h.tail true
        cases b
        · simp only [if_neg Bool.false_ne_true]
          refine List.Chain'.append ?_ hrest ?_
          · exact .cons (by decide) (.cons (by decide) (.cons (by decide)
              (.cons (by decide) .nil)))
          · intro p hp y hy
            have hpz : p = '>' := by
              simp only [List.getLast?_cons_cons, List.getLast?_singleton] at hp
              injection hp with hp
              exact hp.symm
            intro hcon
            rw [hpz] at hcon
            exact absurd hcon.1 (by decide)
        · simp only [if_pos rfl, List.nil_append]
          exact hrest
      · rw [if_neg hx]
        refine List.chain'_cons'.mpr ⟨?_, ih h.tail false⟩
        intro y hy hcon
        rw [head?_numLoop_false] at hy
        cases xs with
        | nil => cases hy
        | cons z zs =>
            simp only [List.head?_cons, Option.map_some] at hy
            injection hy with hy
            dsimp only at hy
            have hadj := List.chain'_cons.mp h
            by_cases hz : isDigitC z
            · rw [if_pos hz] at hy
              rw [← hy] at hcon
              exact absurd hcon.2 (by decide)
            · rw [if_neg hz] at hy
              rw [← hy] at hcon
              exact hadj.1 ⟨hcon.1, hcon.2⟩

lemma numLoop_head (l : List Char) (h : headNotWs l) :
    headNotWs (numLoop l false) := by
  intro c hc
  rw [head?_numLoop_false] at hc
  cases l with
  | nil => cases hc
  | cons x xs =>
      simp only [List.head?_cons, Option.map_some] at hc
      injection hc with hc
      dsimp only at hc
      by_cases hx : isDigitC x
      · rw [if_pos hx] at hc
        rw [← hc]
        decide
      · rw [if_neg hx] at hc
        rw [← hc]
        exact h x rfl

lemma numLoop_ne_nil (l : List Char) (h : l ≠ []) : numLoop l false ≠ [] := by
  cases l with
  | nil => exact absurd rfl h
  | cons x xs =>
      unfold numLoop
      by_cases hx : isDigitC x
      · rw [if_pos hx]
        simp
      · rw [if_neg hx]
        simp

lemma numLoop_eq_nil :
    ∀ (l : List Char) (b : Bool), numLoop l b = [] → ∀ c ∈ l, isDigitC c = true := by
  intro l
  induction l with
  | nil => intro b _ c hc; cases hc
  | cons x xs ih =>
      intro b h c hc
      unfold numLoop at h
      by_cases hx : isDigitC x
      · rw [if_pos hx] at h
        cases b
        · simp at h
        · simp only [if_pos rfl, List.nil_append] at h
          rcases List.mem_cons.mp hc with rfl | hm
          · exact hx
          · exact ih true h c hm
      · rw [if_neg hx] at h
        cases h

lemma numLoop_last (l : List Char) :
    ∀ b : Bool, lastNotWs l → lastNotWs (numLoop l b) := by
  induction l with
  | nil => intro b _ c hc; cases hc
  | cons x xs ih =>
      intro b hl
      cases xs with
      | nil =>
          unfold numLoop
          by_cases hx : isDigitC x
          · rw [if_pos hx]
            cases b
            · simp only [if_neg Bool.false_ne_true]
              intro c hc
              simp only [numLoop, List.append_nil] at hc
              simp only [List.getLast?_cons_cons, List.getLast?_singleton] at hc
              injection hc with hc
              rw [← hc]
              decide
            · simp only [if_pos rfl, List.nil_append]
              intro c hc
              simp only [numLoop] at hc
              cases hc
          · rw [if_neg hx]
            intro c hc
            simp only [numLoop] at hc
            rw [List.getLast?_singleton] at hc
            injection hc with hc
            rw [← hc]
            exact hl x rfl
      | cons y ys =>
          have hxs : lastNotWs (y :: ys) := by
            intro c hc
            refine hl c ?_
            rw [List.getLast?_cons_cons]
            exact hc
          unfold numLoop
          by_cases hx : isDigitC x
          · rw [if_pos hx]
            cases b
            · simp only [if_neg Bool.false_ne_true]
              intro c hc
              cases hX : numLoop (y :: ys) true with
              | nil =>
                  rw [hX] at hc
                  simp only [List.append_nil] at hc
                  simp only [List.getLast?_cons_cons, List.getLast?_singleton] at hc
                  injection hc with hc
                  rw [← hc]
                  decide
              | cons w ws =>
                  rw [hX] at hc
                  rw [List.getLast?_append] at hc
                  obtain ⟨d, hd⟩ := Option.isSome_iff_exists.mp
                    (List.getLast?_isSome.mpr (by simp : w :: ws ≠ []))
                  rw [hd] at hc
                  simp only [Option.or_some] at hc
                  injection hc with hc
                  rw [← hc]
                  exact ih true hxs d (by rw [hX]; exact hd)
            · simp only [if_pos rfl, List.nil_append]
              exact ih true hxs
          · rw [if_neg hx]
            intro c hc
            rw [getLast?_cons_of_ne_nil (numLoop_ne_nil (y :: ys) (by simp))] at hc
            exact ih false hxs c hc

/-- C7: the normalizer is idempotent: normalizing an already-normalized line
is a no-op, for every input string. -/
theorem normalize_line_idem (x : List Char) :
    normalize_line (normalize_line x) = normalize_line x := by
  by_cases hw : trim_and_collapse_ws x = []
  · have hx : normalize_line x = '<' :: 'e' :: 'm' :: 'p' :: 't' :: 'y' :: '>' :: [] := by
      unfold normalize_line
      rw [if_pos hw]
    rw [hx]
    decide
  · have hcanon := trim_and_collapse_canon x
    obtain ⟨h1, h2, h3, h4⟩ := hcanon
    have hx : normalize_line x = numLoop (trim_and_collapse_ws x) false := by
      unfold normalize_line
      rw [if_neg hw]
    set w := trim_and_collapse_ws x with hwdef
    have hy1 : wsOnlySpace (numLoop w false) := numLoop_wsOnly w h1 false
    have hy2 : noAdjWs (numLoop w false) := numLoop_chain w h2 false
    have hy3 : headNotWs (numLoop w false) := numLoop_head w h3
    have hy4 : lastNotWs (numLoop w false) := numLoop_last w false h4
    have hyne : numLoop w false ≠ [] := numLoop_ne_nil w hw
    have htc : trim_and_collapse_ws (numLoop w false) = numLoop w false :=
      trim_and_collapse_id _ ⟨hy1, hy2, hy3, hy4⟩
    rw [hx]
    unfold normalize_line
    rw [htc, if_neg hyne]
    exact numLoop_id _ (numLoop_no_digit w false) false

/-- C8: detect_level returns the first level in priority order Error, Warn,
Info, Debug whose keyword occurs case-insensitively in the line (so a line
containing the word warning detects as Warn), and nothing when no keyword
occurs; a detected level always has its keyword in the line; and on a
successful run each level tally entry equals the number of lines that passed
the filter pipeline and whose detected level is that level (in particular
every counted line contains that level's keyword). -/
theorem level_detection_and_tally (fs : FileSystem) (le : EpochFn)
    (o : SummarizeOptions) (r : SummaryResult) :
    (∀ line, detect_level line =
       (if line_has_level line .Error then some .Error
        else if line_has_level line .Warn then some .Warn
        else if line_has_level line .Info then some .Info
        else if line_has_level line .Debug then some .Debug
        else none)) ∧
    (∀ line l, detect_level line = some l → line_has_level line l = true) ∧
    detect_level ("downloading warnings".toList) = some .Warn ∧
    (summarize fs le o = .ok r → ∀ l,
       tallyGet r.matched_by_level l =
         (allLines fs o.files).countP (countsFor le (cfgOf le o) l)) := by
  refine ⟨fun line => rfl, ?_, by decide, ?_⟩
  · intro line l h
    unfold detect_level at h
    dsimp only at h
    unfold line_has_level levelKeyword
    split_ifs at h with h1 h2 h3 h4 <;>
      (injection h with h; rw [← h]; assumption)
  · intro h l
    obtain ⟨st, hst, -, -, -, htal, -⟩ :=
      run_scan_ok_inv fs le (cfgOf le o) o r (summarize_ok_inv fs le o r h)
    obtain ⟨-, -, -, s4, -⟩ :=
      scan_files_ok_stats fs le (cfgOf le o) o.files ScanState.init st hst
    rw [htal, s4 l]
    have : tallyGet ScanState.init.tally l = 0 := by
      cases l <;> rfl
    rw [this]
    omega

/-- Witness for C8 on a concrete successful run. -/
theorem level_detection_and_tally_witness :
    summarize
      (fun p => if p = "x.log" then
         some ["warning 1".toList, "ERROR boom".toList] else none)
      timegm ⟨["x.log"], none, none, none, none, 10⟩ =
      .ok ⟨1, 2, 2, ⟨1, 1, 0, 0⟩,
        [⟨"ERROR boom".toList, 1⟩, ⟨"warning <num>".toList, 1⟩]⟩ ∧
    tallyGet (⟨1, 1, 0, 0⟩ : LevelTally) .Warn =
      (allLines
        (fun p => if p = "x.log" then
           some ["warning 1".toList, "ERROR boom".toList] else none)
        ["x.log"]).countP
        (countsFor timegm
          (cfgOf timegm ⟨["x.log"], none, none, none, none, 10⟩) .Warn) :=
  ⟨by decide,
   (level_detection_and_tally
      (fun p => if p = "x.log" then
         some ["warning 1".toList, "ERROR boom".toList] else none)
      timegm ⟨["x.log"], none, none, none, none, 10⟩
      ⟨1, 2, 2, ⟨1, 1, 0, 0⟩,
        [⟨"ERROR boom".toList, 1⟩, ⟨"warning <num>".toList, 1⟩]⟩).2.2.2
     (by decide) .Warn⟩

lemma slice_zero (s : List Char) (pos : Nat) : slice s pos 0 = [] := by
  simp [slice]

lemma slice_succ (s : List Char) (pos len : Nat) (h : pos < s.length) :
    slice s pos (len + 1) = s[pos] :: slice s (pos + 1) len := by
  unfold slice
  rw [List.drop_eq_getElem_cons h, List.take_succ_cons]

lemma readFixedNat_spec (s : List Char) :
    ∀ (len pos acc : Nat), pos + len ≤ s.length →
    readFixedNat s pos len acc =
      (if (slice s pos len).all isDigitC then
        some ((slice s pos len).foldl (fun a c => a * 10 + (c.toNat - 48)) acc)
       else none) := by
  intro len
  induction len with
  | zero =>
      intro pos acc _
      rw [slice_zero]
      simp [readFixedNat]
  | succ n ih =>
      intro pos acc hle
      have hpos : pos < s.length := by omega
      rw [slice_succ s pos n hpos]
      unfold readFixedNat
      rw [List.get?_eq_getElem?, List.getElem?_eq_getElem hpos]
      simp only [List.all_cons, List.foldl_cons]
      by_cases hd : isDigitC s[pos]
      · rw [if_pos hd]
        rw [ih (pos + 1) (acc * 10 + (s[pos].toNat - 48)) (by omega)]
        simp [hd]
      · rw [if_neg hd]
        simp [hd]

lemma parse_fixed_int_eq (s : List Char) (pos len : Nat) (h : pos + len ≤ s.length) :
    parse_fixed_int s pos len = digitsVal (slice s pos len) := by
  unfold parse_fixed_int digitsVal
  rw [if_neg (by omega), readFixedNat_spec s len pos 0 h]

/-- Epoch conversion the spec prescribes for a read timestamp: the UTC form
through the timezone-independent conversion, the local form through the host
conversion. -/
def spec_epoch (le : EpochFn) (fu : TsFields × Bool) : Int :=
  if fu.2 then timegm fu.1.year fu.1.month fu.1.day fu.1.hour fu.1.minute fu.1.second
  else le fu.1.year fu.1.month fu.1.day fu.1.hour fu.1.minute fu.1.second

lemma spec_read_none_of_shape (t : List Char)
    (h : ¬ (spec_shape_utc t ∨ spec_shape_local t)) : spec_timestamp_read t = none := by
  unfold spec_timestamp_read
  rw [if_neg h]

lemma spec_read_eq (t : List Char) :
    spec_timestamp_read t =
      if spec_shape_utc t ∨ spec_shape_local t then
        match digitsVal (slice t 0 4), digitsVal (slice t 5 2), digitsVal (slice t 8 2),
              digitsVal (slice t 11 2), digitsVal (slice t 14 2), digitsVal (slice t 17 2) with
        | some y, some mo, some d, some h, some mi, some sec =>
            if spec_fields_ok ⟨y, mo, d, h, mi, sec⟩ then
              some ((⟨y, mo, d, h, mi, sec⟩ : TsFields), decide (charAtD t 10 = 'T'))
            else none
        | _, _, _, _, _, _ => none
      else none := rfl

lemma prefix_exact_spec (le : EpochFn) (t : List Char) :
    (match parse_timestamp_prefix le t with
     | none => none
     | some parsed => if parsed.consumed_chars ≠ t.length then none
                      else some parsed.epoch_seconds) =
    (spec_timestamp_read t).bind
      (fun fu => if spec_epoch le fu = -1 then none else some (spec_epoch le fu)) := by
  by_cases hlen : t.length < 19
  · rw [spec_read_none_of_shape t (by
      rintro (h | h)
      · exact absurd h.1 (by omega)
      · exact absurd h.1 (by omega))]
    unfold parse_timestamp_prefix
    rw [if_pos hlen]
    rfl
  by_cases hsep : charAtD t 4 = '-' ∧ charAtD t 7 = '-' ∧
      charAtD t 13 = ':' ∧ charAtD t 16 = ':'
  case neg =>
    rw [spec_read_none_of_shape t (by
      rintro (h | h)
      · exact hsep ⟨h.2.1, h.2.2.1, h.2.2.2.2.1, h.2.2.2.2.2.1⟩
      · exact hsep ⟨h.2.1, h.2.2.1, h.2.2.2.2.1, h.2.2.2.2.2⟩)]
    unfold parse_timestamp_prefix
    rw [if_neg hlen, if_pos (by exact fun hc => hsep hc)]
    rfl
  by_cases hTsp : charAtD t 10 = 'T' ∨ charAtD t 10 = ' '
  case neg =>
    rw [spec_read_none_of_shape t (by
      rintro (h | h)
      · exact hTsp (Or.inl h.2.2.2.1)
      · exact hTsp (Or.inr h.2.2.2.1))]
    unfold parse_timestamp_prefix
    rw [if_neg hlen, if_neg (by simpa using hsep), if_pos (by exact fun hc => hTsp hc)]
    rfl
  -- separators in place; rewrite the fixed-width field reads on both sides
  have e1 : parse_fixed_int t 0 4 = digitsVal (slice t 0 4) :=
    parse_fixed_int_eq t 0 4 (by omega)
  have e2 : parse_fixed_int t 5 2 = digitsVal (slice t 5 2) :=
    parse_fixed_int_eq t 5 2 (by omega)
  have e3 : parse_fixed_int t 8 2 = digitsVal (slice t 8 2) :=
    parse_fixed_int_eq t 8 2 (by omega)
  have e4 : parse_fixed_int t 11 2 = digitsVal (slice t 11 2) :=
    parse_fixed_int_eq t 11 2 (by omega)
  have e5 : parse_fixed_int t 14 2 = digitsVal (slice t 14 2) :=
    parse_fixed_int_eq t 14 2 (by omega)
  have e6 : parse_fixed_int t 17 2 = digitsVal (slice t 17 2) :=
    parse_fixed_int_eq t 17 2 (by omega)
  unfold parse_timestamp_prefix
  rw [if_neg hlen, if_neg (not_not_intro hsep), if_neg (not_not_intro hTsp)]
  rw [e1, e2, e3, e4, e5, e6]
  rw [spec_read_eq]
  rcases h1 : digitsVal (slice t 0 4) with _ | year
  · by_cases hsh : spec_shape_utc t ∨ spec_shape_local t
    · rw [if_pos hsh]; rfl
    · rw [if_neg hsh]; rfl
  rcases h2 : digitsVal (slice t 5 2) with _ | month
  · by_cases hsh : spec_shape_utc t ∨ spec_shape_local t
    · rw [if_pos hsh]; rfl
    · rw [if_neg hsh]; rfl
  rcases h3 : digitsVal (slice t 8 2) with _ | day
  · by_cases hsh : spec_shape_utc t ∨ spec_shape_local t
    · rw [if_pos hsh]; rfl
    · rw [if_neg hsh]; rfl
  rcases h4 : digitsVal (slice t 11 2) with _ | hour
  · by_cases hsh : spec_shape_utc t ∨ spec_shape_local t
    · rw [if_pos hsh]; rfl
    · rw [if_neg hsh]; rfl
  rcases h5 : digitsVal (slice t 14 2) with _ | minute
  · by_cases hsh : spec_shape_utc t ∨ spec_shape_local t
    · rw [if_pos hsh]; rfl
    · rw [if_neg hsh]; rfl
  rcases h6 : digitsVal (slice t 17 2) with _ | second
  · by_cases hsh : spec_shape_utc t ∨ spec_shape_local t
    · rw [if_pos hsh]; rfl
    · rw [if_neg hsh]; rfl
  dsimp only
  by_cases hmo : month < 1 ∨ month > 12
  · have hnok : ¬ spec_fields_ok ⟨year, month, day, hour, minute, second⟩ := by
      intro hf
      obtain ⟨f1, f2, -⟩ := hf
      dsimp only at f1 f2
      omega
    rw [if_pos hmo]
    by_cases hsh : spec_shape_utc t ∨ spec_shape_local t
    · rw [if_pos hsh, if_neg hnok]; rfl
    · rw [if_neg hsh]; rfl
  by_cases hday : day < 1 ∨ day > days_in_month year month
  · have hnok : ¬ spec_fields_ok ⟨year, month, day, hour, minute, second⟩ := by
      intro hf
      obtain ⟨-, -, f3, f4, -⟩ := hf
      dsimp only at f3 f4
      omega
    rw [if_neg hmo, if_pos hday]
    by_cases hsh : spec_shape_utc t ∨ spec_shape_local t
    · rw [if_pos hsh, if_neg hnok]; rfl
    · rw [if_neg hsh]; rfl
  by_cases htm : hour > 23 ∨ minute > 59 ∨ second > 59
  · have hnok : ¬ spec_fields_ok ⟨year, month, day, hour, minute, second⟩ := by
      intro hf
      obtain ⟨-, -, -, -, f5, f6, f7⟩ := hf
      dsimp only at f5 f6 f7
      omega
    rw [if_neg hmo, if_neg hday, if_pos htm]
    by_cases hsh : spec_shape_utc t ∨ spec_shape_local t
    · rw [if_pos hsh, if_neg hnok]; rfl
    · rw [if_neg hsh]; rfl
  have hok : spec_fields_ok ⟨year, month, day, hour, minute, second⟩ := by
    refine ⟨?_, ?_, ?_, ?_, ?_, ?_, ?_⟩ <;> dsimp only <;> omega
  rw [if_neg hmo, if_neg hday, if_neg htm]
  rcases hTsp with hT | hS
  · -- UTC form: the separator is T
    have hdec : decide (charAtD t 10 = 'T') = true := by
      rw [hT]; decide
    simp only [hT, eq_self_iff_true, true_and, if_true, hdec]
    by_cases hz : t.length < 20 ∨ ¬ charAtD t 19 = 'Z'
    · rw [if_pos hz]
      have hnsh : ¬ (spec_shape_utc t ∨ spec_shape_local t) := by
        rintro (h | h)
        · rcases hz with hz | hz
          · exact absurd h.1 (by omega)
          · exact hz h.2.2.2.2.2.2
        · exact absurd (hT.symm.trans h.2.2.2.1) (by decide)
      rw [if_neg hnsh]
      rfl
    · rw [if_neg hz]
      have hZ : charAtD t 19 = 'Z' := by
        by_contra hc
        exact hz (Or.inr hc)
      have h20 : 20 ≤ t.length := by
        by_contra hc
        exact hz (Or.inl (by omega))
      by_cases htr : t.length > 20 ∧ ¬ isWsp (charAtD t 20) = true
      · rw [if_pos htr]
        have hnsh : ¬ (spec_shape_utc t ∨ spec_shape_local t) := by
          rintro (h | h)
          · exact absurd h.1 (by omega)
          · exact absurd (hT.symm.trans h.2.2.2.1) (by decide)
        rw [if_neg hnsh]
        rfl
      · rw [if_neg htr]
        by_cases hlen20 : t.length = 20
        · have hsh : spec_shape_utc t ∨ spec_shape_local t :=
            Or.inl ⟨hlen20, hsep.1, hsep.2.1, hT, hsep.2.2.1, hsep.2.2.2, hZ⟩
          rw [if_pos hsh, if_pos hok]
          have hse : spec_epoch le
              ((⟨year, month, day, hour, minute, second⟩ : TsFields), decide True) =
              timegm year month day hour minute second := by
            simp [spec_epoch]
          by_cases heps : timegm year month day hour minute second = -1
          · rw [if_pos heps]
            simp only [Option.some_bind, hse, if_pos heps]
          · rw [if_neg heps]
            simp only [Option.some_bind, hse, if_neg heps]
            have : ¬ ((20 : Nat) ≠ t.length) := fun hc => hc hlen20.symm
            rw [if_neg this]
        · have hnsh : ¬ (spec_shape_utc t ∨ spec_shape_local t) := by
            rintro (h | h)
            · exact hlen20 h.1
            · exact absurd (hT.symm.trans h.2.2.2.1) (by decide)
          rw [if_neg hnsh]
          by_cases heps : timegm year month day hour minute second = -1
          · rw [if_pos heps]
            rfl
          · rw [if_neg heps]
            have hne : (20 : Nat) ≠ t.length := fun hc => hlen20 hc.symm
            show (if (20 : Nat) ≠ t.length then none
              else some (timegm year month day hour minute second)) = _
            rw [if_pos hne]
            rfl
  · -- local form: the separator is a space
    have hTF : ¬ (charAtD t 10 = 'T') := by
      rw [hS]; decide
    simp only [eq_false hTF, false_and, if_false, decide_False]
    by_cases htr : t.length > 19 ∧ ¬ isWsp (charAtD t 19) = true
    · rw [if_pos htr]
      have hnsh : ¬ (spec_shape_utc t ∨ spec_shape_local t) := by
        rintro (h | h)
        · exact hTF h.2.2.2.1
        · exact absurd h.1 (by omega)
      rw [if_neg hnsh]
      rfl
    · rw [if_neg htr]
      by_cases hlen19 : t.length = 19
      · have hsh : spec_shape_utc t ∨ spec_shape_local t :=
          Or.inr ⟨hlen19, hsep.1, hsep.2.1, hS, hsep.2.2.1, hsep.2.2.2⟩
        rw [if_pos hsh, if_pos hok]
        have hse : spec_epoch le
            ((⟨year, month, day, hour, minute, second⟩ : TsFields), false) =
            le year month day hour minute second := by
          simp [spec_epoch]
        by_cases heps : le year month day hour minute second = -1
        · rw [if_pos heps]
          simp only [Option.some_bind, hse, if_pos heps]
        · rw [if_neg heps]
          simp only [Option.some_bind, hse, if_neg heps]
          have hne : ¬ ((19 : Nat) ≠ t.length) := fun hc => hc hlen19.symm
          rw [if_neg hne]
      · have hnsh : ¬ (spec_shape_utc t ∨ spec_shape_local t) := by
          rintro (h | h)
          · exact hTF h.2.2.2.1
          · exact hlen19 h.1
        rw [if_neg hnsh]
        by_cases heps : le year month day hour minute second = -1
        · rw [if_pos heps]
          rfl
        · rw [if_neg heps]
          have hne : (19 : Nat) ≠ t.length := fun hc => hlen19 hc.symm
          show (if (19 : Nat) ≠ t.length then none
            else some (le year month day hour minute second)) = _
          rw [if_pos hne]
          rfl


/-- C3 (amended): the exact timestamp parse equals, functionally, the
spec-grammar read of the trimmed input followed by the prescribed epoch
conversion and the code's -1 sentinel rejection.  In particular it succeeds
iff the trimmed input is one of the two fixed-width forms with in-range
all-digit fields AND the converted epoch value is not -1. -/
theorem parse_timestamp_exact_spec (le : EpochFn) (input : List Char) :
    parse_timestamp_exact le input =
      (spec_timestamp_read (trim input)).bind
        (fun fu => if spec_epoch le fu = -1 then none else some (spec_epoch le fu)) := by
  unfold parse_timestamp_exact
  exact prefix_exact_spec le (trim input)

/-- Counterexample to C3 as stated: grammar validity alone does not
characterize success -- the grammar-valid timestamp 1969-12-31T23:59:59Z
converts to epoch -1, which the code rejects as the error sentinel. -/
theorem exact_parse_grammar_iff_fails :
    ¬ (∀ (le : EpochFn) (s : List Char),
        (parse_timestamp_exact le s).isSome = (spec_timestamp_read (trim s)).isSome) :=
  fun hall => absurd (hall timegm ("1969-12-31T23:59:59Z".toList)) (by decide)

end LogSheriff
